import Mathlib

/-
Verification of the dkls23-rs threshold ECDSA signer (crates dkls23-core,
msg-relay, msg-relay-client).

Modelling conventions.

Scalars: `k256::Scalar` is the field of integers modulo the secp256k1 group
order.  The development is parametric in that modulus `q`; theorems that need
field structure assume `Fact q.Prime` (true of the secp256k1 order).

Curve points: the secp256k1 group is cyclic of order `q`, so a point is
modelled by its discrete logarithm, an element of `ZMod q`.  Point addition
becomes field addition, scalar multiplication becomes multiplication, and the
generator `G` is `1`.  A compressed encoding determines the point, so equality
of encodings is equality of the modelled values; where the code manipulates the
raw x-coordinate bytes or the parity tag byte of a compressed point, those are
carried as explicit data.  Decoding of point encodings is performed by the k256
library; the model takes decoded values as inputs where the surrounding claim
assumes valid encodings.

Bytes are lists of naturals; `[u8; 32]` fields are 32-element lists.
-/

namespace DKLS

/-- Big-endian interpretation of a byte string, reduced modulo the group
order.  Models `<Scalar as Reduce<U256>>::reduce_bytes` applied to a 32-byte
array. -/
def reduce_bytes (q : ℕ) (bytes : List ℕ) : ZMod q :=
  ((bytes.foldl (fun acc b => acc * 256 + b) 0 : ℕ) : ZMod q)

/-- `evaluate_polynomial` from keygen/dkg.rs (lines 149-160): ascending-power
accumulation of `coefficients` at the point `x`
(`result += coef * x_power; x_power *= x`). -/
def evaluate_polynomial (q : ℕ) (coefficients : List (ZMod q)) (x : ZMod q) : ZMod q :=
  (coefficients.foldl
    (fun (acc : ZMod q × ZMod q) coef => (acc.1 + coef * acc.2, acc.2 * x))
    (0, 1)).1

/-- k256 scalar inversion followed by `unwrap_or(Scalar::ONE)`: inverting
zero yields one (dsg.rs line 303). -/
def scalar_invert (q : ℕ) (x : ZMod q) : ZMod q :=
  if x = 0 then 1 else x⁻¹

/-- `compute_lagrange_coefficient` from sign/dsg.rs (lines 285-304): the
Lagrange coefficient at zero for party `party_id` over evaluation points
`j + 1`, `j` ranging over `parties`.  The accumulator pair is
(numerator, denominator); the signed difference mirrors the u64 branch
`if j > i { Scalar::from(j - i) } else { -Scalar::from(i - j) }`. -/
def lagrange_fold (q : ℕ) (party_id : ℕ) (parties : List ℕ) : ZMod q × ZMod q :=
  let i := party_id + 1
  parties.foldl
    (fun (acc : ZMod q × ZMod q) j_id =>
      let j := j_id + 1
      if j ≠ i then
        (acc.1 * ((j : ℕ) : ZMod q),
         acc.2 * (if i < j then ((j - i : ℕ) : ZMod q) else -(((i - j : ℕ) : ZMod q))))
      else acc)
    (1, 1)

def compute_lagrange_coefficient (q : ℕ) (party_id : ℕ) (parties : List ℕ) : ZMod q :=
  let r := lagrange_fold q party_id parties
  r.1 * scalar_invert q r.2

/-- The error enumeration of dkls23-core/src/error.rs, restricted to the
variants the verified code paths construct. -/
inductive Error where
  | InvalidConfig : String → Error
  | ThresholdNotMet : ℕ → ℕ → Error
  | InvalidPartyId : ℕ → Error
  | VerificationFailed : String → Error
  | Deserialization : String → Error
  | Timeout : String → Error
  | Internal : String → Error
  deriving DecidableEq

/-- `DkgRound2Message` from keygen/messages.rs: a direct share message.  The
Rust field `from` is a Lean keyword, hence `from_id`/`to_id`. -/
structure DkgRound2Message where
  from_id : ℕ
  to_id : ℕ
  share : List ℕ
  deriving DecidableEq

/-- The error string built by `verify_share` on a mismatch, which identifies
the sender (dkg.rs lines 197-200). -/
def share_mismatch_msg (sender : ℕ) : String :=
  "Share from party " ++ toString sender ++ " does not match commitment"

/-- `verify_share` from keygen/dkg.rs (lines 163-204).  A share whose byte
length is not 32 is a `Deserialization` error; otherwise the share is reduced
and `share * G` is compared against the ascending-power combination of the
sender's commitments at the point `my_id + 1`.  Commitments are given by their
discrete logarithms (the claim assumes valid point encodings). -/
def verify_share (q : ℕ) (share_msg : DkgRound2Message)
    (commitments : List (ZMod q)) (my_id : ℕ) : Except Error Unit :=
  if share_msg.share.length = 32 then
    let share := reduce_bytes q share_msg.share
    let expected := share
    let actual := (commitments.foldl
      (fun (acc : ZMod q × ZMod q) c =>
        (acc.1 + c * acc.2, acc.2 * (((my_id + 1 : ℕ)) : ZMod q)))
      (0, 1)).1
    if expected = actual then Except.ok ()
    else Except.error (Error.VerificationFailed (share_mismatch_msg share_msg.from_id))
  else Except.error (Error.Deserialization "Invalid share length")

/-- Party `i`'s final secret share after a successful DKG run (dkg.rs lines
92-101): the party's own polynomial evaluated at `i + 1` plus the received
shares `f_j(i + 1)` from every other party.  A received share travels as the
canonical 32-byte encoding and is reduced on receipt, a round trip that is the
identity, so the sum ranges over all parties' polynomials. -/
def dkg_secret_share (q : ℕ) (polys : List (List (ZMod q))) (i : ℕ) : ZMod q :=
  (polys.map (fun p => evaluate_polynomial q p (((i + 1 : ℕ)) : ZMod q))).sum

/-- `compute_public_key` from keygen/dkg.rs (lines 207-227): fails on an empty
commitment vector, otherwise sums the constant-term commitments `C_{j,0}`.
In discrete-log form the sum of points is the sum of the coefficients. -/
def compute_public_key (q : ℕ) (all_commitments : List (List (ZMod q))) :
    Except Error (ZMod q) :=
  if all_commitments.any (fun c => c.isEmpty) then
    Except.error (Error.VerificationFailed "Empty commitments")
  else
    Except.ok ((all_commitments.map (fun c => c.headD 0)).sum)

/-- `KeyShare` from types.rs (lines 92-119).  `public_key` and the entries of
`public_shares` are stored as compressed point encodings in the source and
modelled by their discrete logarithms; byte-identical encodings correspond to
equal values. -/
structure KeyShare (q : ℕ) where
  party_id : ℕ
  n_parties : ℕ
  threshold : ℕ
  secret_share : ZMod q
  public_key : ZMod q
  public_shares : List (ZMod q)
  chain_code : List ℕ
  deriving DecidableEq

/-- `SessionConfig` from types.rs (lines 228-244).  `session_id` is a 32-byte
identifier. -/
structure SessionConfig where
  session_id : List ℕ
  n_parties : ℕ
  threshold : ℕ
  party_id : ℕ
  parties : List ℕ
  deriving DecidableEq

/-- The entry of `run_dsg` (sign/dsg.rs lines 43-62): the threshold and
membership guards, then the session configuration built around a freshly
sampled random session id.  `session_draw` is the value of the
`rand::random()` call on line 55; the `message` argument of `run_dsg` is not
consulted by this prefix of the protocol. -/
def run_dsg_session_setup (q : ℕ) (key_share : KeyShare q) (parties : List ℕ)
    (session_draw : List ℕ) : Except Error SessionConfig :=
  if parties.length < key_share.threshold then
    Except.error (Error.ThresholdNotMet key_share.threshold parties.length)
  else if key_share.party_id ∉ parties then
    Except.error (Error.InvalidPartyId key_share.party_id)
  else
    Except.ok
      { session_id := session_draw
        n_parties := parties.length
        threshold := key_share.threshold
        party_id := key_share.party_id
        parties := parties }

/-- The (session_id, round) mailbox keys on which `run_dsg` posts and collects
messages: `pre_signature` broadcasts and collects on rounds 1 and 2 of
`config.session_id` (dsg.rs lines 134, 138, 157, 161) and `run_dsg` itself on
round 3 of the same id (lines 75, 79). -/
def run_dsg_mailbox_keys (config : SessionConfig) : List (List ℕ × ℕ) :=
  [(config.session_id, 1), (config.session_id, 2), (config.session_id, 3)]

/-- The Round-2 share derivation of `pre_signature` (sign/dsg.rs lines
144-150).  The source comments mark this step as simplified (no MtA is run):
`k_inv_share` is set to `k_i` itself and `chi_share` to
`(secret_share * lambda_i) * k_i`. -/
def pre_signature_shares (q : ℕ) (secret_share : ZMod q) (party_id : ℕ)
    (parties : List ℕ) (k_i : ZMod q) : ZMod q × ZMod q :=
  let lambda_i := compute_lagrange_coefficient q party_id parties
  let x_i := secret_share * lambda_i
  (k_i, x_i * k_i)

/-- `PreSignature` from sign/mod.rs (lines 14-26).  The compressed `r_point`
field is carried as its x-coordinate bytes `r_x` plus the parity tag
`r_y_odd` (tag byte 0x03); no other field exists — in particular there is no
`consumed` flag. -/
structure PreSignature where
  session_id : List ℕ
  parties : List ℕ
  r_x : List ℕ
  r_y_odd : Bool
  k_inv_share : List ℕ
  chi_share : List ℕ
  deriving DecidableEq

/-- `PartialSignature` from sign/mod.rs (lines 28-35). -/
structure PartialSignature where
  party_id : ℕ
  sigma_share : List ℕ
  deriving DecidableEq

/-- `Signature` from types.rs (lines 21-29).  The 32-byte `s` field is the
canonical big-endian encoding of the scalar, so the big-endian integer value
of the stored bytes is `s.val`; `r` is copied verbatim from the x-coordinate
bytes of the R point. -/
structure Sig (q : ℕ) where
  r : List ℕ
  s : ZMod q
  recovery_id : ℕ
  deriving DecidableEq

/-- Canonical 32-byte big-endian encoding of a scalar (`Scalar::to_bytes`). -/
def scalar_to_bytes (q : ℕ) (x : ZMod q) : List ℕ :=
  (List.range 32).map (fun k => x.val / 256 ^ (31 - k) % 256)

/-- `create_partial_signature` from sign/dsg.rs (lines 192-237): parses the
pre-signature shares (each must be 32 bytes), reduces the R point's
x-coordinate and the message to scalars, and returns
`sigma = k_inv_share * m + r * chi_share` with `party_id` left at 0 for the
caller to set.  Decoding of the `[u8; 33]` R point is performed by k256 and
assumed valid (the field's type guarantees its shape). -/
def create_partial_signature (q : ℕ) (pre_sig : PreSignature) (message : List ℕ) :
    Except Error PartialSignature :=
  if pre_sig.k_inv_share.length = 32 then
    if pre_sig.chi_share.length = 32 then
      let k_inv_share := reduce_bytes q pre_sig.k_inv_share
      let chi_share := reduce_bytes q pre_sig.chi_share
      let r := reduce_bytes q pre_sig.r_x
      let m := reduce_bytes q message
      let sigma_share := k_inv_share * m + r * chi_share
      Except.ok { party_id := 0, sigma_share := scalar_to_bytes q sigma_share }
    else Except.error (Error.Deserialization "Invalid chi_share length")
  else Except.error (Error.Deserialization "Invalid k_inv_share length")

/-- `combine_partial_signatures` from sign/dsg.rs (lines 240-282): sums the
reduced sigma shares (each must be 32 bytes), copies `r` from the R point's
x-coordinate bytes, returns `s` as computed — the comment on line 269 says
"Normalize s to low-s form" but no normalization is performed — and sets
`recovery_id` from the parity tag of the compressed R point (1 when the tag
byte is 0x03). -/
def combine_partial_signatures (q : ℕ) (pre_sig : PreSignature)
    (partials : List PartialSignature) : Except Error (Sig q) :=
  if partials.all (fun p => p.sigma_share.length = 32) then
    let s := (partials.map (fun p => reduce_bytes q p.sigma_share)).sum
    let recovery_id := if pre_sig.r_y_odd then 1 else 0
    Except.ok { r := pre_sig.r_x, s := s, recovery_id := recovery_id }
  else Except.error (Error.Deserialization "Invalid sigma_share length")

/-- `run_key_refresh` from keygen/key_refresh.rs (lines 13-35).  The body
only logs: the comment on lines 26-27 says "For now, return a placeholder -
full implementation would follow the key refresh protocol", and the function
returns `key_share.clone()`. -/
def run_key_refresh (q : ℕ) (config : SessionConfig) (key_share : KeyShare q) :
    Except Error (KeyShare q) :=
  Except.ok key_share

/-- `derive_non_hardened` from types.rs (lines 198-225).  The HMAC-SHA512 of
`chain_code` over `public_key ∥ index_be32` is computed by the external
`hmac`/`sha2` crates; its 64-byte output enters the model as `hmac_output`.
The first 32 bytes are reduced to the tweak and added to the parent secret
share; the last 32 bytes become the new chain code. -/
def derive_non_hardened (q : ℕ) (parent : KeyShare q) (chain_code : List ℕ)
    (hmac_output : List ℕ) : ZMod q × List ℕ :=
  let secret_add := reduce_bytes q (hmac_output.take 32)
  (parent.secret_share + secret_add, hmac_output.drop 32)

/-- One non-hardened step of `KeyShare::derive_child` (types.rs lines
168-190): the loop body assigns only `secret_share` and the threaded chain
code; `public_key`, `public_shares` and the remaining fields are carried over
unchanged from the parent. -/
def derive_child_step (q : ℕ) (share : KeyShare q) (hmac_output : List ℕ) :
    KeyShare q :=
  let r := derive_non_hardened q share share.chain_code hmac_output
  { share with secret_share := r.1, chain_code := r.2 }

/-- A broadcast protocol message as stored by the relays: the sender id is a
field of the serialized payload (every `*Round*Message` carries `party_id`),
shown here alongside the rest of the payload. -/
structure BroadcastMsg where
  sender : ℕ
  payload : List ℕ
  deriving DecidableEq

/-- `MemoryRelay::collect_broadcasts` (mpc/memory.rs lines 83-109).  `msgs` is
the Vec stored under the `(session_id, round)` key, in insertion order.  When
at least `count` messages are present the first `count` are returned (no
sender dedup, no reordering); otherwise the collector re-checks after every
notification or 100 ms sleep, forever — modelled as `none`, since no code path
produces a `Timeout` error. -/
def memory_collect_broadcasts (msgs : List BroadcastMsg) (count : ℕ) :
    Option (List BroadcastMsg) :=
  if count ≤ msgs.length then some (msgs.take count) else none

/-- The polling loop of `RelayClient::collect_broadcasts`
(msg-relay-client/src/lib.rs lines 172-191).  `avail att sender` is the
store's reply for sender `sender` on poll attempt `att`; each attempt sweeps
senders `0..count` and appends every available message, and a failed sweep
consumes one of the `MAX_ATTEMPTS = 100` attempts (`fuel`). -/
def client_collect_go (count : ℕ) (avail : ℕ → ℕ → Option BroadcastMsg) :
    ℕ → ℕ → List BroadcastMsg → List BroadcastMsg
  | 0, _, acc => acc
  | fuel + 1, att, acc =>
    if acc.length < count then
      client_collect_go count avail fuel (att + 1)
        (acc ++ (List.range count).filterMap (fun sender => avail att sender))
    else acc

/-- `RelayClient::collect_broadcasts` (msg-relay-client/src/lib.rs lines
166-201): run the polling loop, then fail with `Timeout` when fewer than
`count` messages were accumulated. -/
def client_collect_broadcasts (count round : ℕ)
    (avail : ℕ → ℕ → Option BroadcastMsg) : Except Error (List BroadcastMsg) :=
  let messages := client_collect_go count avail 100 0 []
  if messages.length < count then
    Except.error (Error.Timeout
      ("Waiting for " ++ toString count ++ " broadcast messages in round "
        ++ toString round))
  else Except.ok messages

/-- `MessageId` from msg-relay/src/lib.rs (lines 30-42). -/
structure MessageId where
  session_id : String
  round : ℕ
  from_id : Option ℕ
  to_id : Option ℕ
  tag : String
  deriving DecidableEq

/-- `StoredMessage` from msg-relay/src/lib.rs (lines 71-81); `chrono`
timestamps are modelled as integers. -/
structure StoredMessage where
  id : MessageId
  payload : List ℕ
  created_at : ℤ
  expires_at : ℤ
  deriving DecidableEq

/-- A `MessageStore` keyed by `MessageId.hash()`.  BLAKE3 hashing of the
canonical id string is injective on ids in the model, so the DashMap keyed by
the hex hash is modelled as a map keyed by the id itself. -/
def MessageStore := MessageId → Option StoredMessage

/-- `MessageStore::put` (msg-relay/src/lib.rs lines 102-115): builds a fresh
`StoredMessage` with `created_at = now` and `expires_at = now + ttl` and
inserts it, replacing any previous entry under the same key. -/
def message_store_put (ttl : ℤ) (store : MessageStore) (id : MessageId)
    (payload : List ℕ) (now : ℤ) : MessageStore :=
  fun key =>
    if key = id then
      some { id := id, payload := payload, created_at := now, expires_at := now + ttl }
    else store key

/-- `MessageStore::get` (msg-relay/src/lib.rs lines 118-125), with the
`NotFound` case as `none`. -/
def message_store_get (store : MessageStore) (id : MessageId) :
    Option StoredMessage :=
  store id

/-- The empty message store. -/
def message_store_empty : MessageStore := fun _ => none

/-- Whether an `Except` result is a success. -/
def except_is_ok {α : Type} : Except Error α → Bool
  | Except.ok _ => true
  | Except.error _ => false

instance exceptDecidableEq {ε α : Type} [DecidableEq ε] [DecidableEq α] :
    DecidableEq (Except ε α) := fun x y =>
  match x, y with
  | Except.ok a, Except.ok b =>
      match decEq a b with
      | isTrue h => isTrue (by rw [h])
      | isFalse h => isFalse (fun hh => h (Except.ok.inj hh))
  | Except.error a, Except.error b =>
      match decEq a b with
      | isTrue h => isTrue (by rw [h])
      | isFalse h => isFalse (fun hh => h (Except.error.inj hh))
  | Except.ok _, Except.error _ => isFalse (fun hh => Except.noConfusion hh)
  | Except.error _, Except.ok _ => isFalse (fun hh => Except.noConfusion hh)

/-- Concrete session configuration used by counterexample instances. -/
def fixture_config : SessionConfig :=
  { session_id := List.replicate 32 0
    n_parties := 3
    threshold := 2
    party_id := 0
    parties := [0, 1, 2] }

/-- Concrete key share used by counterexample instances (modulus 5). -/
def fixture_share : KeyShare 5 :=
  { party_id := 0
    n_parties := 3
    threshold := 2
    secret_share := 3
    public_key := 4
    public_shares := [1, 2, 3]
    chain_code := List.replicate 32 9 }

/-- Concrete parent key share for the derivation counterexample: public key
(dlog) 1, secret share 3, all over modulus 5. -/
def derive_parent : KeyShare 5 :=
  { party_id := 0
    n_parties := 2
    threshold := 2
    secret_share := 3
    public_key := 1
    public_shares := [1, 2]
    chain_code := List.replicate 32 0 }

/-- Concrete 64-byte HMAC-SHA512 output for the derivation counterexample:
`I_L` encodes 2 (a nonzero tweak), `I_R` is 32 bytes of 7. -/
def derive_hmac_output : List ℕ :=
  List.replicate 31 0 ++ [2] ++ List.replicate 32 7

/-- Concrete pre-signature for the reuse counterexample: 32-byte shares
encoding 1, R point with x-coordinate bytes encoding 1 and even parity. -/
def reuse_pre_sig : PreSignature :=
  { session_id := List.replicate 32 0
    parties := [0, 1]
    r_x := List.replicate 31 0 ++ [1]
    r_y_odd := false
    k_inv_share := List.replicate 31 0 ++ [1]
    chi_share := List.replicate 31 0 ++ [1] }

/-- Concrete pre-signature for the combine counterexample: even-parity R. -/
def combine_pre_sig : PreSignature :=
  { session_id := List.replicate 32 0
    parties := [0]
    r_x := List.replicate 31 0 ++ [1]
    r_y_odd := false
    k_inv_share := List.replicate 31 0 ++ [1]
    chi_share := List.replicate 31 0 ++ [1] }

/-- A store reply schedule for the relay-client witness: senders 0 and 1 are
available on every attempt, nothing else is. -/
def avail_two : ℕ → ℕ → Option BroadcastMsg :=
  fun _ sender => if sender < 2 then some ⟨sender, [sender]⟩ else none

/-- Concrete message id for the store counterexample. -/
def fixture_msg_id : MessageId :=
  { session_id := "s", round := 1, from_id := some 0, to_id := none, tag := "broadcast" }

/-! ### Polynomial bridge lemmas

`evaluate_polynomial` (and the structurally identical commitment loop of
`verify_share`) are ascending-power folds; they are related here to
`Polynomial.eval` of the polynomial determined by the coefficient list. -/

/-- The polynomial with the given (ascending) coefficient list. -/
noncomputable def list_poly (q : ℕ) (l : List (ZMod q)) : Polynomial (ZMod q) :=
  l.foldr (fun a p => Polynomial.C a + Polynomial.X * p) 0

lemma list_poly_nil (q : ℕ) : list_poly q [] = 0 := rfl

lemma list_poly_cons (q : ℕ) (a : ZMod q) (t : List (ZMod q)) :
    list_poly q (a :: t) = Polynomial.C a + Polynomial.X * list_poly q t := rfl

lemma foldl_eval_aux (q : ℕ) (l : List (ZMod q)) (x a pw : ZMod q) :
    (l.foldl (fun (acc : ZMod q × ZMod q) coef => (acc.1 + coef * acc.2, acc.2 * x))
      (a, pw)).1 = a + pw * (list_poly q l).eval x := by
  induction l generalizing a pw with
  | nil => simp [list_poly_nil]
  | cons c t ih =>
      simp only [List.foldl_cons, ih, list_poly_cons, Polynomial.eval_add, Polynomial.eval_mul,
        Polynomial.eval_C, Polynomial.eval_X]
      ring

lemma evaluate_polynomial_eq_eval (q : ℕ) (l : List (ZMod q)) (x : ZMod q) :
    evaluate_polynomial q l x = (list_poly q l).eval x := by
  simpa using foldl_eval_aux q l x 0 1

lemma evaluate_polynomial_eq_sum (q : ℕ) (l : List (ZMod q)) (x : ZMod q) :
    evaluate_polynomial q l x = ∑ k ∈ Finset.range l.length, l.getD k 0 * x ^ k := by
  rw [evaluate_polynomial_eq_eval]
  induction l with
  | nil => simp [list_poly_nil]
  | cons c t ih =>
      simp only [list_poly_cons, Polynomial.eval_add, Polynomial.eval_mul, Polynomial.eval_C,
        Polynomial.eval_X, ih, List.length_cons]
      rw [Finset.sum_range_succ']
      simp only [List.getD_cons_succ, List.getD_cons_zero, pow_zero, mul_one, pow_succ,
        Finset.mul_sum]
      rw [add_comm]
      congr 1
      refine Finset.sum_congr rfl ?_
      intro k _
      ring

lemma list_poly_eval_zero (q : ℕ) (l : List (ZMod q)) :
    (list_poly q l).eval 0 = l.headD 0 := by
  cases l with
  | nil => simp [list_poly_nil]
  | cons c t => simp [list_poly_cons]

lemma list_poly_degree_lt (q : ℕ) (l : List (ZMod q)) :
    (list_poly q l).degree < (l.length : WithBot ℕ) := by
  induction l with
  | nil =>
      rw [list_poly_nil, Polynomial.degree_zero]
      exact_mod_cast WithBot.bot_lt_coe (0 : ℕ)
  | cons c t ih =>
      rw [list_poly_cons]
      refine lt_of_le_of_lt (Polynomial.degree_add_le _ _) (max_lt ?_ ?_)
      · refine lt_of_le_of_lt Polynomial.degree_C_le ?_
        exact_mod_cast WithBot.coe_lt_coe.mpr (Nat.succ_pos t.length)
      · refine lt_of_le_of_lt (Polynomial.degree_mul_le _ _) ?_
        have hx : (Polynomial.X : Polynomial (ZMod q)).degree + (list_poly q t).degree
            ≤ 1 + (list_poly q t).degree :=
          add_le_add_right Polynomial.degree_X_le _
        refine lt_of_le_of_lt hx ?_
        have h1 : (1 : WithBot ℕ) + (list_poly q t).degree
            < 1 + (t.length : WithBot ℕ) :=
          WithBot.add_lt_add_left (by simp) ih
        refine lt_of_lt_of_le h1 (le_of_eq ?_)
        rw [List.length_cons]
        push_cast
        rw [add_comm]

/-! ### Lagrange-fold bridge lemmas -/

lemma lagrange_fold_aux (q pid : ℕ) (l : List ℕ) (a b : ZMod q) :
    (l.foldl
      (fun (acc : ZMod q × ZMod q) j_id =>
        let j := j_id + 1
        if j ≠ pid + 1 then
          (acc.1 * ((j : ℕ) : ZMod q),
           acc.2 * (if pid + 1 < j then ((j - (pid + 1) : ℕ) : ZMod q)
                    else -(((pid + 1 - j : ℕ) : ZMod q))))
        else acc)
      (a, b))
    = (a * (((l.filter (fun j => j + 1 ≠ pid + 1)).map
          (fun j => ((j + 1 : ℕ) : ZMod q))).prod),
       b * (((l.filter (fun j => j + 1 ≠ pid + 1)).map
          (fun j => if pid + 1 < j + 1 then ((j + 1 - (pid + 1) : ℕ) : ZMod q)
                    else -(((pid + 1 - (j + 1) : ℕ) : ZMod q)))).prod)) := by
  induction l generalizing a b with
  | nil => simp
  | cons c t ih =>
      simp only [List.foldl_cons, List.filter_cons, decide_eq_true_eq]
      by_cases hc : c + 1 ≠ pid + 1
      · simp only [if_pos hc, List.map_cons, List.prod_cons]
        rw [ih]
        simp only [Prod.mk.injEq]
        exact ⟨mul_assoc _ _ _, mul_assoc _ _ _⟩
      · simp only [if_neg hc]
        exact ih a b

lemma lagrange_fold_eq (q pid : ℕ) (l : List ℕ) :
    lagrange_fold q pid l
    = ((((l.filter (fun j => j + 1 ≠ pid + 1)).map
          (fun j => ((j + 1 : ℕ) : ZMod q))).prod),
       (((l.filter (fun j => j + 1 ≠ pid + 1)).map
          (fun j => if pid + 1 < j + 1 then ((j + 1 - (pid + 1) : ℕ) : ZMod q)
                    else -(((pid + 1 - (j + 1) : ℕ) : ZMod q)))).prod)) := by
  have h := lagrange_fold_aux q pid l 1 1
  simp only [one_mul] at h
  exact h

lemma lagrange_diff_eq (q i j : ℕ) (hne : j ≠ i) :
    (if i + 1 < j + 1 then ((j + 1 - (i + 1) : ℕ) : ZMod q)
     else -(((i + 1 - (j + 1) : ℕ) : ZMod q)))
    = ((j + 1 : ℕ) : ZMod q) - ((i + 1 : ℕ) : ZMod q) := by
  by_cases h : i + 1 < j + 1
  · rw [if_pos h]
    rw [Nat.cast_sub (le_of_lt h)]
  · rw [if_neg h]
    rw [Nat.cast_sub (by omega)]
    ring

lemma poly_list_sum_degree_lt (q : ℕ) (ps : List (Polynomial (ZMod q))) (n : ℕ)
    (h : ∀ p ∈ ps, p.degree < (n : WithBot ℕ)) :
    ps.sum.degree < (n : WithBot ℕ) := by
  induction ps with
  | nil =>
      rw [List.sum_nil, Polynomial.degree_zero]
      exact_mod_cast WithBot.bot_lt_coe n
  | cons p t ih =>
      rw [List.sum_cons]
      refine lt_of_le_of_lt (Polynomial.degree_add_le _ _) (max_lt ?_ ?_)
      · exact h p (List.mem_cons_self p t)
      · exact ih (fun r hr => h r (List.mem_cons_of_mem p hr))

/-! ### Scalar inversion evaluation helpers -/

lemma scalar_invert_eq (q : ℕ) (hq : Fact q.Prime) (x y : ZMod q) (hx : x ≠ 0)
    (hxy : x * y = 1) : scalar_invert q x = y := by
  rw [scalar_invert, if_neg hx]
  haveI := hq
  exact inv_eq_of_mul_eq_one_right hxy

lemma compute_lagrange_coefficient_eq (q : ℕ) (hq : Fact q.Prime) (i : ℕ)
    (parties : List ℕ) (a b c : ZMod q) (hf : lagrange_fold q i parties = (a, b))
    (hb : b ≠ 0) (hbc : b * c = 1) :
    compute_lagrange_coefficient q i parties = a * c := by
  simp only [compute_lagrange_coefficient, hf]
  rw [scalar_invert_eq q hq b c hb hbc]

/-! ### C3: DKG Lagrange reconstruction of the public key -/

/-- C3: after an honest DKG run in which every party j samples a coefficient
list of length t (a polynomial of degree ≤ t−1) and the Feldman checks pass,
for every signing set S of distinct parties with |S| ≥ t (evaluation points
below the modulus, as holds for n ≤ 16 on secp256k1), the Lagrange-weighted
sum Σ_{i∈S} λ_i^S · secret_share_i equals the discrete logarithm of the
public key computed from the commitments.  Agreement on the public-key bytes
is immediate: every party applies `compute_public_key` to the same collected
commitment set. -/
theorem dkg_lagrange_reconstructs_public_key_dlog (q t : ℕ) (hq : Fact q.Prime)
    (polys : List (List (ZMod q))) (ht : 0 < t)
    (hdeg : ∀ p ∈ polys, p.length = t)
    (S : List ℕ) (hnd : S.Nodup) (hcard : t ≤ S.length)
    (hlt : ∀ i ∈ S, i + 1 < q) :
    compute_public_key q polys =
      Except.ok ((S.map (fun i =>
        compute_lagrange_coefficient q i S * dkg_secret_share q polys i)).sum) := by
  haveI := hq
  haveI : NeZero q := ⟨hq.out.pos.ne'⟩
  have hne : ¬ (polys.any fun c => c.isEmpty) = true := by
    rw [List.any_eq_true]
    rintro ⟨p, hp, hemp⟩
    have hL := hdeg p hp
    rw [List.isEmpty_iff] at hemp
    rw [hemp] at hL
    simp at hL
    omega
  have hinj : Set.InjOn (fun i : ℕ => ((i + 1 : ℕ) : ZMod q)) ↑S.toFinset := by
    intro a ha b hb hab
    have haS : a ∈ S := by simpa using ha
    have hbS : b ∈ S := by simpa using hb
    have h1 := hlt a haS
    have h2 := hlt b hbS
    have hv := congrArg ZMod.val hab
    simp only at hv
    rw [ZMod.val_cast_of_lt h1, ZMod.val_cast_of_lt h2] at hv
    omega
  have hdegF : ((polys.map (list_poly q)).sum).degree < (S.length : WithBot ℕ) := by
    apply poly_list_sum_degree_lt
    intro pl hpl
    rcases List.mem_map.mp hpl with ⟨p, hp, rfl⟩
    refine lt_of_lt_of_le (list_poly_degree_lt q p) ?_
    rw [hdeg p hp]
    exact_mod_cast hcard
  have hcardS : S.toFinset.card = S.length := List.toFinset_card_of_nodup hnd
  have hdegF' : ((polys.map (list_poly q)).sum).degree < (S.toFinset.card : WithBot ℕ) := by
    rw [hcardS]
    exact hdegF
  have hinterp := Lagrange.eq_interpolate (s := S.toFinset)
    (v := fun i : ℕ => ((i + 1 : ℕ) : ZMod q)) hinj hdegF'
  have hF0 : Polynomial.eval 0 ((polys.map (list_poly q)).sum)
      = (polys.map (fun c => c.headD 0)).sum := by
    rw [← Polynomial.coe_evalRingHom,
      map_list_sum (Polynomial.evalRingHom (0 : ZMod q)) (polys.map (list_poly q)),
      List.map_map]
    congr 1
    refine List.map_congr_left ?_
    intro p hp
    simp only [Function.comp_apply, Polynomial.coe_evalRingHom]
    exact list_poly_eval_zero q p
  have hshare : ∀ i : ℕ, dkg_secret_share q polys i
      = Polynomial.eval ((i + 1 : ℕ) : ZMod q) ((polys.map (list_poly q)).sum) := by
    intro i
    simp only [dkg_secret_share]
    rw [← Polynomial.coe_evalRingHom,
      map_list_sum (Polynomial.evalRingHom (((i + 1 : ℕ) : ZMod q))) (polys.map (list_poly q)),
      List.map_map]
    congr 1
    refine List.map_congr_left ?_
    intro p hp
    simp only [Function.comp_apply, Polynomial.coe_evalRingHom]
    exact evaluate_polynomial_eq_eval q p _
  have hRHS : (Lagrange.interpolate S.toFinset (fun i : ℕ => ((i + 1 : ℕ) : ZMod q))
        (fun i => Polynomial.eval ((i + 1 : ℕ) : ZMod q)
          ((polys.map (list_poly q)).sum))).eval 0
      = ∑ i ∈ S.toFinset,
          Polynomial.eval ((i + 1 : ℕ) : ZMod q) ((polys.map (list_poly q)).sum)
            * (Lagrange.basis S.toFinset (fun i : ℕ => ((i + 1 : ℕ) : ZMod q)) i).eval 0 := by
    rw [Lagrange.interpolate_apply, Polynomial.eval_finset_sum]
    refine Finset.sum_congr rfl ?_
    intro i hi
    rw [Polynomial.eval_mul, Polynomial.eval_C]
  have hbasis : ∀ i ∈ S.toFinset,
      (Lagrange.basis S.toFinset (fun i : ℕ => ((i + 1 : ℕ) : ZMod q)) i).eval 0
        = compute_lagrange_coefficient q i S := by
    intro i hi
    have hconv : ∀ f : ℕ → ZMod q,
        ((S.filter (fun j => j + 1 ≠ i + 1)).map f).prod = ∏ j ∈ S.toFinset.erase i, f j := by
      intro f
      have hfilter : S.filter (fun j => j + 1 ≠ i + 1) = S.filter (fun j => j ≠ i) := by
        apply List.filter_congr
        intro a _
        rw [decide_eq_decide]
        omega
      have htofin : (S.filter (fun j => j ≠ i)).toFinset = S.toFinset.erase i := by
        ext a
        simp only [List.mem_toFinset, List.mem_filter, Finset.mem_erase, decide_eq_true_eq]
        exact and_comm
      rw [hfilter, ← List.prod_toFinset f (hnd.filter _), htofin]
    have hP2 : ((S.filter (fun j => j + 1 ≠ i + 1)).map
        (fun j => if i + 1 < j + 1 then ((j + 1 - (i + 1) : ℕ) : ZMod q)
                  else -(((i + 1 - (j + 1) : ℕ) : ZMod q)))).prod
        = ∏ j ∈ S.toFinset.erase i, (((j + 1 : ℕ) : ZMod q) - ((i + 1 : ℕ) : ZMod q)) := by
      have hmc : (S.filter (fun j => j + 1 ≠ i + 1)).map
          (fun j => if i + 1 < j + 1 then ((j + 1 - (i + 1) : ℕ) : ZMod q)
                    else -(((i + 1 - (j + 1) : ℕ) : ZMod q)))
          = (S.filter (fun j => j + 1 ≠ i + 1)).map
              (fun j => ((j + 1 : ℕ) : ZMod q) - ((i + 1 : ℕ) : ZMod q)) := by
        refine List.map_congr_left ?_
        intro a ha
        have hane := (List.mem_filter.mp ha).2
        simp only [decide_eq_true_eq] at hane
        exact lagrange_diff_eq q i a (by omega)
      rw [hmc, hconv]
    have hP2ne : (∏ j ∈ S.toFinset.erase i,
        (((j + 1 : ℕ) : ZMod q) - ((i + 1 : ℕ) : ZMod q))) ≠ 0 := by
      rw [Finset.prod_ne_zero_iff]
      intro j hj
      have hjS : j ∈ S.toFinset := Finset.mem_of_mem_erase hj
      have hji : j ≠ i := Finset.ne_of_mem_erase hj
      refine sub_ne_zero.mpr ?_
      intro hh
      exact hji (hinj (by simpa using hjS) (by simpa using hi) hh)
    have hcl : compute_lagrange_coefficient q i S
        = (∏ j ∈ S.toFinset.erase i, ((j + 1 : ℕ) : ZMod q))
          * (∏ j ∈ S.toFinset.erase i,
              (((j + 1 : ℕ) : ZMod q) - ((i + 1 : ℕ) : ZMod q)))⁻¹ := by
      simp only [compute_lagrange_coefficient, lagrange_fold_eq]
      rw [hconv (fun j => ((j + 1 : ℕ) : ZMod q)), hP2]
      rw [scalar_invert, if_neg hP2ne]
    have hL : (Lagrange.basis S.toFinset (fun i : ℕ => ((i + 1 : ℕ) : ZMod q)) i).eval 0
        = ∏ j ∈ S.toFinset.erase i,
            (((j + 1 : ℕ) : ZMod q) * (((j + 1 : ℕ) : ZMod q) - ((i + 1 : ℕ) : ZMod q))⁻¹) := by
      rw [Lagrange.basis, Polynomial.eval_prod]
      refine Finset.prod_congr rfl ?_
      intro j hj
      rw [Lagrange.basisDivisor, Polynomial.eval_mul, Polynomial.eval_C,
        Polynomial.eval_sub, Polynomial.eval_X, Polynomial.eval_C]
      rw [show (((i + 1 : ℕ) : ZMod q) - ((j + 1 : ℕ) : ZMod q))
          = -((((j + 1 : ℕ) : ZMod q)) - (((i + 1 : ℕ) : ZMod q))) by ring]
      rw [inv_neg]
      ring
    rw [hL, hcl, Finset.prod_mul_distrib, Finset.prod_inv_distrib]
  simp only [compute_public_key]
  rw [if_neg hne]
  congr 1
  calc (polys.map (fun c => c.headD 0)).sum
      = Polynomial.eval 0 ((polys.map (list_poly q)).sum) := hF0.symm
    _ = (Lagrange.interpolate S.toFinset (fun i : ℕ => ((i + 1 : ℕ) : ZMod q))
          (fun i => Polynomial.eval ((i + 1 : ℕ) : ZMod q)
            ((polys.map (list_poly q)).sum))).eval 0 := by
          exact congrArg (fun p => Polynomial.eval 0 p) hinterp
    _ = ∑ i ∈ S.toFinset,
          Polynomial.eval ((i + 1 : ℕ) : ZMod q) ((polys.map (list_poly q)).sum)
            * (Lagrange.basis S.toFinset (fun i : ℕ => ((i + 1 : ℕ) : ZMod q)) i).eval 0 :=
          hRHS
    _ = ∑ i ∈ S.toFinset,
          compute_lagrange_coefficient q i S * dkg_secret_share q polys i := by
          refine Finset.sum_congr rfl ?_
          intro i hi
          rw [hbasis i hi, hshare i]
          ring
    _ = (S.map (fun i =>
          compute_lagrange_coefficient q i S * dkg_secret_share q polys i)).sum :=
          List.sum_toFinset _ hnd

/-- Witness for C3 at a concrete instance: modulus 11, threshold 2, two
parties with polynomials [1, 2] and [3, 4], signing set {0, 1}.  The shares
are x_0 = 10 and x_1 = 5, the Lagrange coefficients 2 and 10, and
2·10 + 10·5 = 4 = 1 + 3, the public key's discrete log. -/
theorem dkg_lagrange_reconstructs_public_key_dlog_witness :
    (0 < 2 ∧ (∀ p ∈ [[(1 : ZMod 11), 2], [3, 4]], p.length = 2) ∧
      ([0, 1] : List ℕ).Nodup ∧ 2 ≤ ([0, 1] : List ℕ).length ∧
      (∀ i ∈ ([0, 1] : List ℕ), i + 1 < 11)) ∧
    compute_public_key 11 [[1, 2], [3, 4]] =
      Except.ok ((([0, 1] : List ℕ).map (fun i =>
        compute_lagrange_coefficient 11 i [0, 1]
          * dkg_secret_share 11 [[1, 2], [3, 4]] i)).sum) :=
  ⟨⟨by decide, by decide, by decide, by decide, by decide⟩,
   dkg_lagrange_reconstructs_public_key_dlog 11 2 ⟨by norm_num⟩ [[1, 2], [3, 4]]
     (by decide) (by decide) [0, 1] (by decide) (by decide) (by decide)⟩

/-! ### C5: verify_share characterization -/

/-- C5: for a received DKG Round-2 share message with valid commitment
encodings, `verify_share` succeeds exactly when the reduced share times the
generator equals the ascending-power combination of the sender's commitments
at `my_id + 1`; a failing equation yields `VerificationFailed` naming the
sender, and a share whose byte length is not 32 yields `Deserialization`. -/
theorem verify_share_characterization (q : ℕ) (msg : DkgRound2Message)
    (commitments : List (ZMod q)) (my_id : ℕ) :
    (msg.share.length = 32 →
      (verify_share q msg commitments my_id = Except.ok () ↔
        reduce_bytes q msg.share =
          ∑ k ∈ Finset.range commitments.length,
            commitments.getD k 0 * (((my_id + 1 : ℕ)) : ZMod q) ^ k) ∧
      (reduce_bytes q msg.share ≠
          ∑ k ∈ Finset.range commitments.length,
            commitments.getD k 0 * (((my_id + 1 : ℕ)) : ZMod q) ^ k →
        verify_share q msg commitments my_id =
          Except.error (Error.VerificationFailed (share_mismatch_msg msg.from_id)))) ∧
    (msg.share.length ≠ 32 →
      verify_share q msg commitments my_id =
        Except.error (Error.Deserialization "Invalid share length")) := by
  have hfold :
      (commitments.foldl
        (fun (acc : ZMod q × ZMod q) c =>
          (acc.1 + c * acc.2, acc.2 * (((my_id + 1 : ℕ)) : ZMod q)))
        (0, 1)).1 =
      ∑ k ∈ Finset.range commitments.length,
        commitments.getD k 0 * (((my_id + 1 : ℕ)) : ZMod q) ^ k := by
    rw [← evaluate_polynomial_eq_sum]
    rfl
  constructor
  · intro h32
    constructor
    · rw [verify_share, if_pos h32, hfold]
      constructor
      · intro hok
        by_contra hne
        rw [if_neg hne] at hok
        exact Except.noConfusion hok
      · intro heq
        rw [if_pos heq]
    · intro hne
      rw [verify_share, if_pos h32, hfold, if_neg hne]
  · intro h32
    rw [verify_share, if_neg h32]

/-- Witness for C5 at a concrete input: a 32-byte share encoding 5 against
commitments `[2, 3]` for receiver 0 (evaluation point 1) verifies, since
2 + 3 · 1 = 5 in `ZMod 13`. -/
theorem verify_share_characterization_witness :
    ((List.replicate 31 0 ++ [5]).length = 32) ∧
    verify_share 13 ⟨1, 0, List.replicate 31 0 ++ [5]⟩ [2, 3] 0 = Except.ok () := by
  refine ⟨by decide, ?_⟩
  exact ((verify_share_characterization 13 ⟨1, 0, List.replicate 31 0 ++ [5]⟩
    [2, 3] 0).1 (by decide)).1.mpr (by decide)

/-! ### C1: the simplified Round-2 shares are not inverse shares -/

/-- C1: the claim fails on the code.  With signing set {0, 1}, secret shares
1 and 1 and nonces k_0 = k_1 = 1 (modulus 5), the Round-2 shares computed by
`pre_signature` (k_inv_share_i = k_i, chi_share_i = λ_i·x_i·k_i) satisfy
Σ k_inv_share = 2 while (Σ k)⁻¹ = 3, and Σ chi_share = 1 while
x·(Σ k)⁻¹ = 3: neither claimed identity holds, so the combined signature is
not a valid ECDSA signature. -/
theorem dsg_presignature_shares_not_inverse_shares :
    ((pre_signature_shares 5 1 0 [0, 1] 1).1 + (pre_signature_shares 5 1 1 [0, 1] 1).1
      ≠ ((1 : ZMod 5) + 1)⁻¹) ∧
    ((pre_signature_shares 5 1 0 [0, 1] 1).2 + (pre_signature_shares 5 1 1 [0, 1] 1).2
      ≠ (compute_lagrange_coefficient 5 0 [0, 1] * 1
          + compute_lagrange_coefficient 5 1 [0, 1] * 1) * ((1 : ZMod 5) + 1)⁻¹) := by
  have hm3 : ((1 : ZMod 5) + 1) * 3 = 1 := by decide
  have hinv : ((1 : ZMod 5) + 1)⁻¹ = 3 := by
    haveI : Fact (Nat.Prime 5) := ⟨by norm_num⟩
    exact inv_eq_of_mul_eq_one_right hm3
  have hl0 : compute_lagrange_coefficient 5 0 [0, 1] = 2 := by
    have h := compute_lagrange_coefficient_eq 5 ⟨by norm_num⟩ 0 [0, 1] 2 1 1
      (by decide) (by decide) (by decide)
    rw [h, mul_one]
  have hl1 : compute_lagrange_coefficient 5 1 [0, 1] = 4 := by
    have h := compute_lagrange_coefficient_eq 5 ⟨by norm_num⟩ 1 [0, 1] 1 4 4
      (by decide) (by decide) (by decide)
    rw [h, one_mul]
  constructor
  · rw [hinv]
    decide
  · rw [hinv]
    simp only [pre_signature_shares, hl0, hl1]
    decide

/-! ### C2: no low-s normalization in combine_partial_signatures -/

/-- C2: the claim fails on the code.  A single partial signature whose sigma
share encodes 5 (modulus 7) sums to s = 5 > 7/2, yet
`combine_partial_signatures` returns s unchanged with the recovery id taken
from the parity tag alone (0 here, not flipped); the low-s replacement
s ← n − s required by the claim never happens. -/
theorem combine_partial_signatures_no_low_s :
    combine_partial_signatures 7 combine_pre_sig [⟨0, List.replicate 31 0 ++ [5]⟩]
      = Except.ok { r := combine_pre_sig.r_x, s := (5 : ZMod 7), recovery_id := 0 } ∧
    ¬ ((5 : ZMod 7).val ≤ 7 / 2) := by
  decide

/-! ### C4: key refresh is a placeholder returning the input share -/

/-- C4: the claim fails on the code.  `run_key_refresh` returns its input
share unchanged: `public_key` is indeed byte-identical, but `secret_share`
equals the prior value with certainty instead of differing with probability
1 − 2⁻²⁵⁶. -/
theorem run_key_refresh_returns_share_unchanged :
    (run_key_refresh 5 fixture_config fixture_share).map KeyShare.public_key
        = Except.ok fixture_share.public_key ∧
    (run_key_refresh 5 fixture_config fixture_share).map KeyShare.secret_share
        = Except.ok fixture_share.secret_share := by
  decide

/-! ### C6: derive_child does not tweak the public data -/

/-- C6: the claim fails on the code.  One non-hardened derivation step with a
nonzero tweak (2, modulus 5) updates `secret_share` and `chain_code` as the
claim says, but leaves `public_key` and `public_shares` at the parent values
instead of adding tweak·G to them. -/
theorem derive_child_public_key_not_tweaked :
    (derive_child_step 5 derive_parent derive_hmac_output).secret_share
        = derive_parent.secret_share + reduce_bytes 5 (derive_hmac_output.take 32) ∧
    (derive_child_step 5 derive_parent derive_hmac_output).chain_code
        = derive_hmac_output.drop 32 ∧
    reduce_bytes 5 (derive_hmac_output.take 32) ≠ 0 ∧
    (derive_child_step 5 derive_parent derive_hmac_output).public_key
        = derive_parent.public_key ∧
    (derive_child_step 5 derive_parent derive_hmac_output).public_key
        ≠ derive_parent.public_key + reduce_bytes 5 (derive_hmac_output.take 32) ∧
    (derive_child_step 5 derive_parent derive_hmac_output).public_shares
        = derive_parent.public_shares ∧
    (derive_child_step 5 derive_parent derive_hmac_output).public_shares
        ≠ derive_parent.public_shares.map
            (fun ps => ps + reduce_bytes 5 (derive_hmac_output.take 32)) := by
  decide

/-! ### C8: pre-signatures are not single-use -/

/-- C8 counterexample: the same `PreSignature` value used with two different
messages yields two successful partial signatures; nothing fails on reuse
(and the `PreSignature` structure carries no `consumed` flag). -/
theorem pre_signature_reuse_counterexample :
    except_is_ok (create_partial_signature 5 reuse_pre_sig
        (List.replicate 31 0 ++ [1])) = true ∧
    except_is_ok (create_partial_signature 5 reuse_pre_sig
        (List.replicate 31 0 ++ [2])) = true ∧
    (List.replicate 31 0 ++ [1] : List ℕ) ≠ List.replicate 31 0 ++ [2] := by
  decide

/-- C8 (amended): `create_partial_signature` is a pure, stateless function of
the pre-signature and the message: whenever the two 32-byte share fields are
well-formed it succeeds and returns the sigma share, however often the same
pre-signature has been used before and whatever the message. -/
theorem create_partial_signature_stateless (q : ℕ) (pre_sig : PreSignature)
    (m : List ℕ) (hk : pre_sig.k_inv_share.length = 32)
    (hc : pre_sig.chi_share.length = 32) :
    create_partial_signature q pre_sig m =
      Except.ok
        { party_id := 0
          sigma_share := scalar_to_bytes q
            (reduce_bytes q pre_sig.k_inv_share * reduce_bytes q m
              + reduce_bytes q pre_sig.r_x * reduce_bytes q pre_sig.chi_share) } := by
  unfold create_partial_signature
  rw [if_pos hk, if_pos hc]

/-- Witness for the amended C8 at a concrete input. -/
theorem create_partial_signature_stateless_witness :
    (reuse_pre_sig.k_inv_share.length = 32 ∧ reuse_pre_sig.chi_share.length = 32) ∧
    create_partial_signature 5 reuse_pre_sig [] =
      Except.ok
        { party_id := 0
          sigma_share := scalar_to_bytes 5
            (reduce_bytes 5 reuse_pre_sig.k_inv_share * reduce_bytes 5 []
              + reduce_bytes 5 reuse_pre_sig.r_x * reduce_bytes 5 reuse_pre_sig.chi_share) } :=
  ⟨⟨by decide, by decide⟩,
    create_partial_signature_stateless 5 reuse_pre_sig [] (by decide) (by decide)⟩

/-! ### C9: a second put refreshes the expiry instead of keeping the earliest -/

/-- C9 counterexample: with ttl 10, putting at time 0 and re-putting at time 5
leaves `expires_at = 15`, the second put's expiry — not the earliest (10)
established by the first put.  `created_at` is refreshed to 5. -/
theorem message_store_put_counterexample :
    (message_store_get
        (message_store_put 10
          (message_store_put 10 message_store_empty fixture_msg_id [1] 0)
          fixture_msg_id [2] 5)
        fixture_msg_id).map StoredMessage.expires_at = some 15 ∧
    (message_store_get
        (message_store_put 10
          (message_store_put 10 message_store_empty fixture_msg_id [1] 0)
          fixture_msg_id [2] 5)
        fixture_msg_id).map StoredMessage.created_at = some 5 ∧
    (15 : ℤ) ≠ 0 + 10 := by
  refine ⟨?_, ?_, by decide⟩ <;>
    simp [message_store_get, message_store_put, message_store_empty]

/-- C9 (amended): re-putting the same `MessageId` replaces the stored entry
wholesale: `created_at` is refreshed to the second put's time and
`expires_at` is recomputed as that time plus the ttl — the earliest
`expires_at` is not kept. -/
theorem message_store_put_refreshes_expiry (ttl : ℤ) (store : MessageStore)
    (id : MessageId) (p1 p2 : List ℕ) (t1 t2 : ℤ) :
    message_store_get
        (message_store_put ttl (message_store_put ttl store id p1 t1) id p2 t2) id
      = some { id := id, payload := p2, created_at := t2, expires_at := t2 + ttl } := by
  simp [message_store_get, message_store_put]

/-! ### C7: collect_broadcasts behavior on the two relay implementations -/

lemma client_collect_go_succ (count : ℕ) (avail : ℕ → ℕ → Option BroadcastMsg)
    (fuel att : ℕ) (acc : List BroadcastMsg) :
    client_collect_go count avail (fuel + 1) att acc =
      if acc.length < count then
        client_collect_go count avail fuel (att + 1)
          (acc ++ (List.range count).filterMap (fun sender => avail att sender))
      else acc := rfl

lemma client_collect_go_of_not_lt (count : ℕ) (avail : ℕ → ℕ → Option BroadcastMsg)
    (fuel att : ℕ) (acc : List BroadcastMsg) (h : ¬ acc.length < count) :
    client_collect_go count avail fuel att acc = acc := by
  cases fuel with
  | zero => rfl
  | succ n =>
      rw [client_collect_go_succ, if_neg h]

lemma client_collect_go_all_none (count : ℕ) (avail : ℕ → ℕ → Option BroadcastMsg)
    (h : ∀ att s, avail att s = none) :
    ∀ fuel att, client_collect_go count avail fuel att [] = [] := by
  intro fuel
  induction fuel with
  | zero => intro att; rfl
  | succ n ih =>
      intro att
      rw [client_collect_go_succ]
      by_cases hc : ([] : List BroadcastMsg).length < count
      · rw [if_pos hc]
        have hnil : (List.range count).filterMap (fun s => avail att s) = [] := by
          simp [h]
        rw [hnil]
        simp only [List.append_nil]
        exact ih (att + 1)
      · rw [if_neg hc]

/-- C7 counterexample on the in-memory relay: with two broadcasts posted by
the same sender 1, `collect_broadcasts` for count 2 returns both (senders not
pairwise distinct); with posts by senders 1 then 0 it returns them in
insertion order (not sorted by sender id); and with fewer than `count`
messages it blocks forever (`none`) instead of failing with `Timeout`. -/
theorem memory_collect_broadcasts_counterexample :
    memory_collect_broadcasts [⟨1, [10]⟩, ⟨1, [20]⟩] 2 = some [⟨1, [10]⟩, ⟨1, [20]⟩] ∧
    ¬ (([⟨1, [10]⟩, ⟨1, [20]⟩] : List BroadcastMsg).map BroadcastMsg.sender).Nodup ∧
    memory_collect_broadcasts [⟨1, [10]⟩, ⟨0, [20]⟩] 2 = some [⟨1, [10]⟩, ⟨0, [20]⟩] ∧
    ¬ List.Sorted (· ≤ ·)
        (([⟨1, [10]⟩, ⟨0, [20]⟩] : List BroadcastMsg).map BroadcastMsg.sender) ∧
    memory_collect_broadcasts [⟨0, [10]⟩] 2 = none := by
  refine ⟨by decide, by decide, by decide, ?_, by decide⟩
  simp [List.Sorted]

/-- C7 (amended): what the two implementations actually do.  The in-memory
relay returns the first `count` posted payloads in insertion order whenever at
least `count` are present — regardless of sender distinctness or order — and
otherwise re-checks forever, never returning `Timeout`.  The HTTP client
fails with `Timeout` when the store never answers; when every sender in
`0..count` is available on the first poll attempt it returns exactly `count`
messages, one per sender, in ascending sender order. -/
theorem collect_broadcasts_behavior (msgs : List BroadcastMsg) (count round : ℕ)
    (avail : ℕ → ℕ → Option BroadcastMsg) (pay : ℕ → List ℕ) :
    (count ≤ msgs.length → memory_collect_broadcasts msgs count = some (msgs.take count)) ∧
    (msgs.length < count → memory_collect_broadcasts msgs count = none) ∧
    (0 < count → (∀ s, s < count → avail 0 s = some ⟨s, pay s⟩) →
      client_collect_broadcasts count round avail =
        Except.ok ((List.range count).map (fun s => ⟨s, pay s⟩))) ∧
    ((∀ att s, avail att s = none) → 0 < count →
      client_collect_broadcasts count round avail =
        Except.error (Error.Timeout
          ("Waiting for " ++ toString count ++ " broadcast messages in round "
            ++ toString round))) := by
  refine ⟨?_, ?_, ?_, ?_⟩
  · intro h
    rw [memory_collect_broadcasts, if_pos h]
  · intro h
    rw [memory_collect_broadcasts, if_neg (by omega)]
  · intro hc hav
    have hfm : (List.range count).filterMap (fun s => avail 0 s)
        = (List.range count).map (fun s => (⟨s, pay s⟩ : BroadcastMsg)) := by
      rw [List.filterMap_congr (g := fun s => some (⟨s, pay s⟩ : BroadcastMsg))
        (fun a ha => hav a (List.mem_range.mp ha))]
      exact congrFun
        (List.filterMap_eq_map (fun s => (⟨s, pay s⟩ : BroadcastMsg))) (List.range count)
    have hlen : ((List.range count).map (fun s => (⟨s, pay s⟩ : BroadcastMsg))).length
        = count := by
      simp
    have hgo : client_collect_go count avail 100 0 []
        = (List.range count).map (fun s => (⟨s, pay s⟩ : BroadcastMsg)) := by
      rw [show (100 : ℕ) = 99 + 1 from rfl, client_collect_go_succ]
      rw [if_pos (by simpa using hc), List.nil_append, hfm]
      exact client_collect_go_of_not_lt count avail 99 1 _ (by rw [hlen]; omega)
    rw [client_collect_broadcasts]
    simp only [hgo, hlen]
    rw [if_neg (by omega)]
  · intro hav hc
    have hgo : client_collect_go count avail 100 0 [] = [] :=
      client_collect_go_all_none count avail hav 100 0
    rw [client_collect_broadcasts]
    simp only [hgo, List.length_nil]
    rw [if_pos hc]

/-- Witness for the amended C7 at concrete inputs. -/
theorem collect_broadcasts_behavior_witness :
    memory_collect_broadcasts [⟨0, [1]⟩, ⟨1, [2]⟩] 1 = some [⟨0, [1]⟩] ∧
    memory_collect_broadcasts [⟨0, [1]⟩] 2 = none ∧
    client_collect_broadcasts 2 1 avail_two =
      Except.ok ((List.range 2).map (fun s => ⟨s, [s]⟩)) ∧
    client_collect_broadcasts 2 1 (fun _ _ => none) =
      Except.error (Error.Timeout
        ("Waiting for " ++ toString 2 ++ " broadcast messages in round "
          ++ toString 1)) := by
  refine ⟨?_, ?_, ?_, ?_⟩
  · exact (collect_broadcasts_behavior [⟨0, [1]⟩, ⟨1, [2]⟩] 1 1 avail_two
      (fun s => [s])).1 (by decide)
  · exact (collect_broadcasts_behavior [⟨0, [1]⟩] 2 1 avail_two
      (fun s => [s])).2.1 (by decide)
  · refine (collect_broadcasts_behavior [] 2 1 avail_two (fun s => [s])).2.2.1
      (by decide) ?_
    intro s hs
    interval_cases s <;> rfl
  · exact (collect_broadcasts_behavior [] 2 1 (fun _ _ => none)
      (fun s => [s])).2.2.2 (fun _ _ => rfl) (by decide)

/-! ### C10: the DSG session id is the fresh random draw -/

/-- C10: `run_dsg` builds its session configuration around the freshly
sampled `session_id` alone: whenever the guards pass, the configured session
id is exactly the random draw — independent of the key share, the message
(which is not consulted) and the signing set — every mailbox key `run_dsg`
posts or collects on carries that id, and two invocations with distinct
draws use unequal session ids. -/
theorem run_dsg_session_id_from_randomness (q q' : ℕ) (ks : KeyShare q)
    (ks' : KeyShare q') (ps ps' : List ℕ) (d d' : List ℕ)
    (cfg cfg' : SessionConfig)
    (h : run_dsg_session_setup q ks ps d = Except.ok cfg)
    (h' : run_dsg_session_setup q' ks' ps' d' = Except.ok cfg') :
    cfg.session_id = d ∧
    (∀ k ∈ run_dsg_mailbox_keys cfg, k.1 = d) ∧
    (d ≠ d' → cfg.session_id ≠ cfg'.session_id) := by
  have hid : cfg.session_id = d := by
    unfold run_dsg_session_setup at h
    split at h
    · exact absurd h (by simp)
    · split at h
      · exact absurd h (by simp)
      · simp only [Except.ok.injEq] at h
        rw [← h]
  have hid' : cfg'.session_id = d' := by
    unfold run_dsg_session_setup at h'
    split at h'
    · exact absurd h' (by simp)
    · split at h'
      · exact absurd h' (by simp)
      · simp only [Except.ok.injEq] at h'
        rw [← h']
  refine ⟨hid, ?_, ?_⟩
  · intro k hk
    simp only [run_dsg_mailbox_keys, List.mem_cons, List.not_mem_nil, or_false] at hk
    rcases hk with hk | hk | hk <;> simp [hk, hid]
  · intro hne
    rw [hid, hid']
    exact hne

/-- Witness for C10 at concrete inputs: party 0 with threshold 2 in set
{0, 1}, draws [1] and [2]. -/
theorem run_dsg_session_id_from_randomness_witness :
    (⟨[1], 2, 2, 0, [0, 1]⟩ : SessionConfig).session_id ≠
      (⟨[2], 2, 2, 0, [0, 1]⟩ : SessionConfig).session_id :=
  (run_dsg_session_id_from_randomness 5 5
    ⟨0, 2, 2, 1, 1, [1, 1], []⟩ ⟨0, 2, 2, 1, 1, [1, 1], []⟩
    [0, 1] [0, 1] [1] [2]
    ⟨[1], 2, 2, 0, [0, 1]⟩ ⟨[2], 2, 2, 0, [0, 1]⟩
    (by decide) (by decide)).2.2 (by decide)

end DKLS
